import Mathlib

set_option maxHeartbeats 1000000

/-! Shallow embedding of the `lodash-up` utility library (`src/index.js`)
and proofs about its specification.  JS strings are modelled as lists of
characters (exact for the ASCII data the claims exercise), JS numbers as
unbounded integers (exact for the integral doubles in range, i.e. `|n| < 2^53`),
and JS objects as association lists in property-insertion order. -/

/-- JS strings, modelled as lists of characters. -/
abbrev Str := List Char

/-- Little-endian decimal digits, structurally recursive on a fuel bound so
that the kernel can evaluate it (`fuel ≥ n` suffices, since `n / 10 < n`). -/
def digitsRevF : Nat → Nat → List Nat
  | 0, _ => []
  | fuel + 1, n => if n = 0 then [] else (n % 10) :: digitsRevF fuel (n / 10)

/-- Little-endian decimal digits of a natural number (`0` yields `[]`);
building block for JS number-to-string conversion. -/
def digitsRev (n : Nat) : List Nat := digitsRevF n n

/-- Decimal representation of a natural number, as `String(n)` produces in JS. -/
def natToStr (n : Nat) : Str :=
  if n = 0 then ['0'] else ((digitsRev n).reverse.map Nat.digitChar)

/-- Decimal representation of an integer, as `String(n)` produces in JS. -/
def intToStr (n : Int) : Str :=
  if n < 0 then '-' :: natToStr n.natAbs else natToStr n.natAbs

/-- JS values: `null`, `undefined`, booleans, numbers, strings, arrays and
plain objects (fields as an association list in insertion order, unique keys). -/
inductive JSVal where
  | vnull
  | vundef
  | vbool (b : Bool)
  | vnum (n : Int)
  | vstr (s : Str)
  | varr (elems : List JSVal)
  | vobj (fields : List (Str × JSVal))

/-- JS truthiness of a value. -/
def truthy : JSVal → Bool
  | .vnull => false
  | .vundef => false
  | .vbool b => b
  | .vnum n => n != 0
  | .vstr s => !s.isEmpty
  | .varr _ => true
  | .vobj _ => true

/-- JS `typeof` tag (note `typeof null === "object"`). -/
def typeof : JSVal → String
  | .vnull => "object"
  | .vundef => "undefined"
  | .vbool _ => "boolean"
  | .vnum _ => "number"
  | .vstr _ => "string"
  | .varr _ => "object"
  | .vobj _ => "object"

/-- The guard `v && typeof v === 'object'` used by `mergeRecursive`. -/
def truthyObj (v : JSVal) : Bool := truthy v && typeof v == "object"

/-- Index `i < len` such that `String(i)` equals the property key `k`,
modelling numeric-index property access on arrays and strings. -/
def arrIndex? (len : Nat) (k : Str) : Option Nat :=
  (List.range len).find? (fun i => natToStr i == k)

/-- Property read `v[k]`, total variant.  Objects look the key up in the field
list, arrays and strings expose their numeric indices, anything else yields
`undefined`.  (Reading a property of `null`/`undefined` throws in JS; the
throwing variant `getProp` below models that.  The merge and placeholder code
only ever read properties of values that passed a truthiness test.) -/
def getSlot : JSVal → Str → JSVal
  | .vobj fs, k => (fs.lookup k).getD .vundef
  | .varr es, k =>
    match arrIndex? es.length k with
    | some i => es.getD i .vundef
    | none => .vundef
  | .vstr cs, k =>
    match arrIndex? cs.length k with
    | some i => .vstr [cs.getD i ' ']
    | none => .vundef
  | _, _ => JSVal.vundef

/-- Replace the value at key `k` (keeping its position), or append the binding. -/
def setField (fs : List (Str × JSVal)) (k : Str) (v : JSVal) : List (Str × JSVal) :=
  if fs.any (fun p => p.1 == k) then fs.map (fun p => if p.1 == k then (k, v) else p)
  else fs ++ [(k, v)]

/-- Property write `v[k] = x`.  Objects update or append the field; arrays
update an existing index or append at the next free index.  Writes to other
shapes (a sparse index, a non-index array key, a primitive target) are not
modelled — in the claims every write lands on an object field or a dense array
index, where this model is exact. -/
def setSlot : JSVal → Str → JSVal → JSVal
  | .vobj fs, k, v => .vobj (setField fs k v)
  | .varr es, k, v =>
    match arrIndex? es.length k with
    | some i => .varr (es.set i v)
    | none => if k == natToStr es.length then .varr (es ++ [v]) else .varr es
  | t, _, _ => t

/-- Merge of a one-character string source into `t`, as `_.mergeRecursive`
performs it: `for (p in "c")` visits the single key `"0"`, and the source
character at that key is the same one-character string again, so the recursion
descends through the target's `"0"` slots until one is not a truthy object. -/
def mergeCharStr (t : JSVal) (c : Char) : JSVal :=
  if h : truthyObj (getSlot t (natToStr 0)) then
    setSlot t (natToStr 0) (mergeCharStr (getSlot t (natToStr 0)) c)
  else
    setSlot t (natToStr 0) (.vstr [c])
termination_by sizeOf t
decreasing_by
  have keyObj : ∀ (fs : List (Str × JSVal)) (k : Str) (v : JSVal),
      fs.lookup k = some v → sizeOf v < sizeOf fs := by
    intro fs
    induction fs with
    | nil => intro k v hl; simp [List.lookup] at hl
    | cons p rest ih =>
      intro k v hl
      obtain ⟨k', v'⟩ := p
      rcases hk : k == k' <;> simp only [List.lookup, hk] at hl
      · have := ih k v hl
        simp only [List.cons.sizeOf_spec]
        omega
      · cases hl
        simp only [List.cons.sizeOf_spec, Prod.mk.sizeOf_spec]
        omega
  have keyArr : ∀ (es : List JSVal) (i : Nat) (v : JSVal),
      es[i]? = some v → sizeOf v < sizeOf es := by
    intro es i v hl
    exact List.sizeOf_lt_of_mem (List.getElem?_mem hl)
  cases t with
  | vnull => simp [getSlot, truthyObj, truthy, typeof] at h
  | vundef => simp [getSlot, truthyObj, truthy, typeof] at h
  | vbool b => simp [getSlot, truthyObj, truthy, typeof] at h
  | vnum n => simp [getSlot, truthyObj, truthy, typeof] at h
  | vstr cs =>
    simp only [getSlot] at h ⊢
    rcases harr : arrIndex? cs.length (natToStr 0) with _ | i <;>
      simp [harr, truthyObj, truthy, typeof] at h
  | varr es =>
    simp only [getSlot] at h ⊢
    rcases harr : arrIndex? es.length (natToStr 0) with _ | i
    · simp [harr, truthyObj, truthy, typeof] at h
    · simp only [harr] at h ⊢
      rcases hin : es[i]? with _ | e
      · simp [List.getD, hin, truthyObj, truthy, typeof] at h
      · have hlt := keyArr es i e hin
        simp only [List.getD, List.get?_eq_getElem?, hin, Option.getD_some,
          JSVal.varr.sizeOf_spec]
        omega
  | vobj fs =>
    simp only [getSlot] at h ⊢
    rcases hlk : fs.lookup (natToStr 0) with _ | v
    · simp [hlk, truthyObj, truthy, typeof] at h
    · have hlt := keyObj fs (natToStr 0) v hlk
      simp only [hlk, Option.getD_some, JSVal.vobj.sizeOf_spec]
      omega

mutual

/-- Model of `_.mergeRecursive(target, obj)` (binary form): for each own
enumerable key of the source — object fields in insertion order, array and
string indices in ascending order, no keys on other primitives (`for…in` over
`null`, `undefined`, numbers and booleans runs zero iterations) — recursively
merge into a truthy-object target slot, otherwise assign the source value. -/
def mergeRecursive : JSVal → JSVal → JSVal
  | t, .vobj gs => mergeFields t gs
  | t, .varr es => mergeElems t 0 es
  | t, .vstr cs => mergeChars t 0 cs
  | t, _ => t

/-- Loop of `mergeRecursive` over the source's object fields. -/
def mergeFields : JSVal → List (Str × JSVal) → JSVal
  | t, [] => t
  | t, (k, v) :: rest =>
    mergeFields
      (if truthyObj (getSlot t k) then setSlot t k (mergeRecursive (getSlot t k) v)
       else setSlot t k v)
      rest

/-- Loop of `mergeRecursive` over the source's array elements (keys `"i"`). -/
def mergeElems : JSVal → Nat → List JSVal → JSVal
  | t, _, [] => t
  | t, i, v :: rest =>
    mergeElems
      (if truthyObj (getSlot t (natToStr i)) then
         setSlot t (natToStr i) (mergeRecursive (getSlot t (natToStr i)) v)
       else setSlot t (natToStr i) v)
      (i + 1) rest

/-- Loop of `mergeRecursive` over the characters of a string source: the value
at key `"i"` is the one-character string whose merge is `mergeCharStr`. -/
def mergeChars : JSVal → Nat → List Char → JSVal
  | t, _, [] => t
  | t, i, c :: rest =>
    mergeChars
      (if truthyObj (getSlot t (natToStr i)) then
         setSlot t (natToStr i) (mergeCharStr (getSlot t (natToStr i)) c)
       else setSlot t (natToStr i) (.vstr [c]))
      (i + 1) rest

end

/-- ASCII lowercasing, modelling `String.prototype.toLowerCase` on the ASCII
inputs the claims exercise. -/
def toLowerStr (s : Str) : Str := s.map Char.toLower

/-- Single-character regex-pattern match: `'.'` matches any character, other
characters match themselves.  This models ECMAScript pattern characters for
patterns built from alphanumerics and `'.'` — the only patterns the claims
exercise; further metacharacters are outside the model. -/
def patCharMatches (p c : Char) : Bool := p == '.' || p == c

/-- Whether the pattern matches a prefix of the text. -/
def matchesAt : Str → Str → Bool
  | [], _ => true
  | _ :: _, [] => false
  | p :: ps, c :: cs => patCharMatches p c && matchesAt ps cs

/-- Scan for the first index at which the pattern matches, or `-1`. -/
def jsSearchAux (pat : Str) : Str → Nat → Int
  | [], i => if matchesAt pat [] then (i : Int) else -1
  | c :: cs, i => if matchesAt pat (c :: cs) then (i : Int) else jsSearchAux pat cs (i + 1)

/-- Model of `s.search(pat)` where the string `pat` is compiled to a regex,
as `_.checkSubject` does via `String.prototype.search`. -/
def jsSearch (s pat : Str) : Int := jsSearchAux pat s 0

/-- Model of `_.checkSubject(subject, input)`: exact equality, else non-empty
`input` found by a case-insensitive regex search over `subject`. -/
def checkSubject (subject input : Str) : Bool :=
  if subject = input then true
  else !input.isEmpty && jsSearch (toLowerStr subject) (toLowerStr input) != -1

/-- Model of `_.startsWith(str, target, position)` (lodash): does `target`
occur at index `position`?  `List.drop` clamps an out-of-range position just
as lodash clamps it to the string length. -/
def startsWith (s target : Str) (position : Nat) : Bool :=
  target.isPrefixOf (s.drop position)

/-- Model of `_.insertStr(str, target, position)`:
`str.substr(0, position) + target + str.substr(position)`. -/
def insertStr (s target : Str) (position : Nat) : Str :=
  s.take position ++ target ++ s.drop position

/-- Model of `_.ensureStartsWith(str, target, position)` (default position 0). -/
def ensureStartsWith (s target : Str) (position : Nat) : Str :=
  if startsWith s target position then s else insertStr s target position

/-- Model of `String.prototype.split` with a one-character separator. -/
def splitCh (sep : Char) : Str → List Str
  | [] => [[]]
  | c :: rest =>
    match splitCh sep rest with
    | [] => [[]]
    | g :: gs => if c = sep then [] :: g :: gs else (c :: g) :: gs

/-- Decimal value of a digit string (most significant first). -/
def digitsVal (cs : Str) : Nat := cs.foldl (fun a c => 10 * a + (c.toNat - 48)) 0

/-- Model of `parseInt(s, 10) || 0`: skip leading whitespace, optional sign,
longest digit run; no digits (`parseInt` returning `NaN`) yields `0`, as does
the `|| 0` fallback. -/
def parseIntOr0 (s : Str) : Int :=
  let t := s.dropWhile Char.isWhitespace
  let neg := t.head? == some '-'
  let t2 := if t.head? == some '-' || t.head? == some '+' then t.tail else t
  let ds := t2.takeWhile Char.isDigit
  if ds.isEmpty then 0
  else if neg then -(digitsVal ds : Int) else (digitsVal ds : Int)

/-- Model of `_.strToSec(hms)`: split on `':'` and combine
`h*3600 + m*60 + s`.  A missing component destructures to `undefined`, which
`parseInt` turns into `NaN` and `|| 0` into `0`; parsing the empty string
models that. -/
def strToSec (hms : Str) : Int :=
  let parts := splitCh ':' hms
  let h := parseIntOr0 (parts.getD 0 [])
  let m := parseIntOr0 (parts.getD 1 [])
  let s := parseIntOr0 (parts.getD 2 [])
  h * 3600 + m * 60 + s

/-- Two-digit zero padding: `if (x < 10) x = '0' + x`. -/
def pad2 (n : Nat) : Str := if n < 10 then '0' :: natToStr n else natToStr n

/-- Model of `_.secToStr(sec)`, producing zero-padded `HH:MM:SS` (hours
unbounded).  `parseInt(sec, 10)` on a non-negative integral number is the
identity, so the model takes the integer directly. -/
def secToStr (sec : Nat) : Str :=
  let h := sec / 3600
  let m := (sec - h * 3600) / 60
  let s := sec - h * 3600 - m * 60
  pad2 h ++ ':' :: pad2 m ++ ':' :: pad2 s

/-- Model of `_.msToStr(ms)`. -/
def msToStr (ms : Nat) : Str := secToStr (ms / 1000)

/-- Model of `(b / den).toFixed(2)` for a natural `b` and a power-of-two
divisor `den`: `b / den` is then an exact double, and `toFixed(2)` rounds
`100 * b / den` to the nearest integer, ties away from zero, which is
`(200 * b + den) / (2 * den)` in integer arithmetic. -/
def toFixed2 (b den : Nat) : Str :=
  let n := (200 * b + den) / (2 * den)
  natToStr (n / 100) ++ '.' ::
    (if n % 100 < 10 then '0' :: natToStr (n % 100) else natToStr (n % 100))

/-- The unit ladder of `_.toByteUnits`. -/
def byteDefs : List (Nat × Str) :=
  [(1, "byte".toList), (1024, "KB".toList), (1024 * 1024, "MB".toList),
   (1024 * 1024 * 1024, "GB".toList), (1024 * 1024 * 1024 * 1024, "TB".toList)]

/-- The loop of `_.toByteUnits` from index `i = 1` on (the `i = 0` iteration
never fires because `def[-1]` is `undefined`, hence falsy): with `prev` the
previous rung, if `b < cur.1` return
`(b / prev.1).toFixed(2) + ' ' + prev.2`, else advance. -/
def byteLoop (b : Nat) (prev : Nat × Str) : List (Nat × Str) → Option Str
  | [] => none
  | cur :: rest =>
    if b < cur.1 then some (toFixed2 b prev.1 ++ ' ' :: prev.2)
    else byteLoop b cur rest

/-- Model of `_.toByteUnits(b)`: `b = Math.abs(parseInt(b, 10))`, then the
ladder loop; if no rung matches, `b + ' byte' + (b > 1 ? 's' : '')`. -/
def toByteUnits (b : Int) : Str :=
  match byteDefs with
  | [] => natToStr b.natAbs ++ " byte".toList ++ (if b.natAbs > 1 then ['s'] else [])
  | first :: rest =>
    match byteLoop b.natAbs first rest with
    | some s => s
    | none => natToStr b.natAbs ++ " byte".toList ++ (if b.natAbs > 1 then ['s'] else [])

/-- Property read that throws (`.error ()`) on `null`/`undefined`, as JS
property access does; otherwise `getSlot`. -/
def getProp : JSVal → Str → Except Unit JSVal
  | .vnull, _ => .error ()
  | .vundef, _ => .error ()
  | v, k => .ok (getSlot v k)

/-- The `if (res.data) { … }` block of `_.getErrorMessage`: yields
`some`-message when one of the `data` checks returns, `none` when control
falls through to the `statusText` check, `.error` when an access throws. -/
def dataBlock (d : JSVal) : Except Unit (Option JSVal) :=
  if truthy d then
    match getProp d "message".toList with
    | .error e => .error e
    | .ok dm =>
      if truthy dm then .ok (some dm)
      else
        match getProp d "error".toList with
        | .error e => .error e
        | .ok de =>
          if typeof de == "string" then .ok (some de)
          else if typeof de == "object" then
            match getProp de "message".toList with
            | .error e => .error e
            | .ok dem => if truthy dem then .ok (some dem) else .ok none
          else .ok none
  else .ok none

/-- Model of `_.getErrorMessage(res)`.  `typeof null === 'object'`, so a
`null` argument enters the object branch and the `res.message` access throws
(`.error ()`). -/
def getErrorMessage (res : JSVal) : Except Unit JSVal :=
  if typeof res == "object" then
    match getProp res "message".toList with
    | .error e => .error e
    | .ok m =>
      if truthy m then .ok m
      else
        match getProp res "data".toList with
        | .error e => .error e
        | .ok d =>
          match dataBlock d with
          | .error e => .error e
          | .ok (some v) => .ok v
          | .ok none =>
            match getProp res "statusText".toList with
            | .error e => .error e
            | .ok st =>
              if truthy st then .ok st
              else
                match getProp res "status".toList with
                | .error e => .error e
                | .ok s => if truthy s then .ok s else .ok res
  else .ok res

/-- Total property lookup used by the specification text: objects resolve
their field, everything else resolves to `undefined`. -/
def specProp (v : JSVal) (k : Str) : JSVal :=
  match v with
  | .vobj fs => (fs.lookup k).getD .vundef
  | _ => JSVal.vundef

/-- The `data`-related part of the specification's priority chain:
`data.message → data.error (if itself a string) → data.error.message (if
`error` is an object)`, with lookups total via `specProp`. -/
def specDataResult (d : JSVal) : Option JSVal :=
  let dm := specProp d "message".toList
  if truthy dm then some dm
  else
    let de := specProp d "error".toList
    if typeof de == "string" then some de
    else
      let dem := specProp de "message".toList
      if typeof de == "object" && truthy dem then some dem
      else none

/-- The error-message resolver as the specification states it: a non-object is
returned unchanged; an object yields the first resolving entry of
`message → data.message → data.error (string) → data.error.message →
statusText → status`, else the object itself. -/
def getErrorMessageSpec (err : JSVal) : JSVal :=
  match err with
  | .vobj _ =>
    let m := specProp err "message".toList
    if truthy m then m
    else
      match specDataResult (specProp err "data".toList) with
      | some v => v
      | none =>
        let st := specProp err "statusText".toList
        if truthy st then st
        else
          let s := specProp err "status".toList
          if truthy s then s else err
  | _ => err

/-- Whether a value is JS `null`. -/
def isNullV : JSVal → Bool
  | .vnull => true
  | _ => false

/-- No-hazard side condition for `getErrorMessage`: the `data.error` field, if
`data` is an object, is not `null` (a `null` there can make
`res.data.error.message` throw). -/
def noNullDataError (err : JSVal) : Bool :=
  match err with
  | .vobj fs =>
    match (fs.lookup "data".toList).getD .vundef with
    | .vobj gs => !isNullV ((gs.lookup "error".toList).getD .vundef)
    | _ => true
  | _ => true

/-- Word character of the `\w` regex class: ASCII letters, digits, underscore. -/
def isWordChar (c : Char) : Bool := c.isAlphanum || c == '_'

mutual

/-- JS `String(v)` coercion, as `String.prototype.replace` applies to the
value a replacement callback returns. -/
def jsToStr : JSVal → Str
  | .vnull => "null".toList
  | .vundef => "undefined".toList
  | .vbool true => "true".toList
  | .vbool false => "false".toList
  | .vnum n => intToStr n
  | .vstr s => s
  | .varr es => joinComma es
  | .vobj _ => "[object Object]".toList

/-- `Array.prototype.toString`: elements joined with `','`, `null` and
`undefined` elements rendering as the empty string. -/
def joinComma : List JSVal → Str
  | [] => []
  | [.vnull] => []
  | [.vundef] => []
  | [e] => jsToStr e
  | .vnull :: rest => ',' :: joinComma rest
  | .vundef :: rest => ',' :: joinComma rest
  | e :: rest => jsToStr e ++ ',' :: joinComma rest

end

/-- Replacement for one matched `\x7b(\w+)\x7d` token: the callback
`(match, p) => params[p] || p` followed by `replace`'s string coercion. -/
def replVal (params : JSVal) (w : Str) : Str :=
  if truthy (getSlot params w) then jsToStr (getSlot params w) else w

/-- Global-replace scan of `str.replace(/\x7b(\w+)\x7d/g, cb)`: at an opening
brace, a maximal non-empty `\w+` run directly followed by a closing brace is a
match (the regex cannot match with a shorter run, since no word character is a
closing brace); otherwise the character is copied and scanning continues. -/
def placeholderScan (params : JSVal) : Str → Str
  | [] => []
  | c :: rest =>
    if c = '\x7b' then
      let w := rest.takeWhile isWordChar
      if !w.isEmpty && (rest.drop w.length).head? == some '\x7d' then
        replVal params w ++ placeholderScan params (rest.drop (w.length + 1))
      else c :: placeholderScan params rest
    else c :: placeholderScan params rest
termination_by s => s.length
decreasing_by
  all_goals simp only [List.length_cons, List.length_drop]
  all_goals omega

/-- Model of `_.placeholder(str, params)`. -/
def placeholder (str : Str) (params : JSVal) : Str :=
  if truthy params then placeholderScan params str else str

/-- A `min`/`max` argument of `_.slugify`: omitted, explicit `null`, or a
number (the claims use non-negative integers). -/
inductive JSArg where
  | undef
  | jnull
  | num (n : Nat)
deriving DecidableEq

/-- JS truthiness of a `min`/`max` argument (`0` is falsy). -/
def truthyArg : JSArg → Bool
  | .undef => false
  | .jnull => false
  | .num n => n != 0

/-- Numeric value of an argument (only read on truthy arguments). -/
def argNum : JSArg → Nat
  | .num n => n
  | _ => 0

/-- Errors `_.slugify` can raise: its own `RangeError`, or the `SyntaxError`
the `RegExp` constructor raises on an out-of-order `\x7bmin,max\x7d` quantifier. -/
inductive SlugErr where
  | rangeError
  | syntaxError
deriving DecidableEq

/-- The character class `[a-z0-9]`. -/
def isSlugChar (c : Char) : Bool := ('a' ≤ c && c ≤ 'z') || ('0' ≤ c && c ≤ '9')

/-- Global matches of `/[a-z0-9]\x7blo,hi\x7d/` (greedy, no upper bound when
`hi = none`): at a class character the engine takes `min(run, hi)` characters
and succeeds when that reaches `lo`, else the scan advances one character. -/
def slugMatches (lo : Nat) (hi : Option Nat) : Str → List Str
  | [] => []
  | c :: rest =>
    if isSlugChar c then
      let t := match hi with
        | some hb => Nat.min (1 + (rest.takeWhile isSlugChar).length) hb
        | none => 1 + (rest.takeWhile isSlugChar).length
      if lo ≤ t then ((c :: rest).take t) :: slugMatches lo hi (rest.drop (t - 1))
      else slugMatches lo hi rest
    else slugMatches lo hi rest
termination_by s => s.length
decreasing_by
  all_goals simp only [List.length_cons, List.length_drop]
  all_goals omega

/-- The literal tail of the pattern `[a-z0-9]\x7b,maxN\x7d`: in ECMAScript,
`\x7b,n\x7d` is not a quantifier, so after the class character the regex
requires the literal characters brace, comma, digits of `maxN`, brace. -/
def litPat (maxN : Nat) : Str := '\x7b' :: ',' :: (natToStr maxN ++ ['\x7d'])

/-- Global matches of the literal-brace pattern: one class character followed
by the literal tail. -/
def slugLitMatches (pat : Str) : Str → List Str
  | [] => []
  | c :: rest =>
    if isSlugChar c && pat.isPrefixOf rest then
      (c :: pat) :: slugLitMatches pat (rest.drop pat.length)
    else slugLitMatches pat rest
termination_by s => s.length
decreasing_by
  all_goals simp only [List.length_cons, List.length_drop]
  all_goals omega

/-- Diacritic folding of `_.deburr` restricted to a common Latin-1 subset;
the identity on ASCII, where all claim inputs live. -/
def deburrChar (c : Char) : Char :=
  if c ∈ ['à', 'á', 'â', 'ã', 'ä', 'å'] then 'a'
  else if c ∈ ['è', 'é', 'ê', 'ë'] then 'e'
  else if c ∈ ['ì', 'í', 'î', 'ï'] then 'i'
  else if c ∈ ['ò', 'ó', 'ô', 'õ', 'ö'] then 'o'
  else if c ∈ ['ù', 'ú', 'û', 'ü'] then 'u'
  else if c = 'ç' then 'c'
  else if c = 'ñ' then 'n'
  else c

/-- Model of `_.deburr`. -/
def deburr (s : Str) : Str := s.map deburrChar

/-- `matches.join('-')`. -/
def joinDash : List Str → Str
  | [] => []
  | [w] => w
  | w :: rest => w ++ '-' :: joinDash rest

/-- Model of `_.slugify(str, min, max)`: on a truthy string, pick the regex by
the four `min`/`max` branches (`!min && !max`, `min && max`, `min && !max`,
`min === null && max`), else throw `RangeError`; run the matcher over
`deburr(str.toLowerCase())` and join with `'-'`.  A falsy string returns `''`. -/
def slugify (str : Str) (min max : JSArg) : Except SlugErr Str :=
  if str.isEmpty then .ok []
  else
    let s := deburr (toLowerStr str)
    if !truthyArg min && !truthyArg max then .ok (joinDash (slugMatches 1 none s))
    else if truthyArg min && truthyArg max then
      if argNum min ≤ argNum max then
        .ok (joinDash (slugMatches (argNum min) (some (argNum max)) s))
      else .error .syntaxError
    else if truthyArg min && !truthyArg max then
      .ok (joinDash (slugMatches (argNum min) none s))
    else if min == .jnull && truthyArg max then
      .ok (joinDash (slugLitMatches (litPat (argNum max)) s))
    else .error .rangeError

/-- ASCII letters and digits: characters that are regex literals (so the
pattern model `patCharMatches` is exact on them) and whose lowercase images
are again in the set. -/
def safeChars : Str :=
  "abcdefghijklmnopqrstuvwxyzABCDEFGHIJKLMNOPQRSTUVWXYZ0123456789".toList

/-- Non-string primitives: numbers, booleans, `null` and `undefined` — the
values over which `for…in` runs zero iterations. -/
def isPrimNonString : JSVal → Bool
  | .vnum _ => true
  | .vbool _ => true
  | .vnull => true
  | .vundef => true
  | _ => false

/-- Target `\x7ba: [1, 2]\x7d` for the array-merge counterexample. -/
def c4target : JSVal := JSVal.vobj [("a".toList, JSVal.varr [JSVal.vnum 1, JSVal.vnum 2])]

/-- Source `\x7ba: [9]\x7d` for the array-merge counterexample. -/
def c4source : JSVal := JSVal.vobj [("a".toList, JSVal.varr [JSVal.vnum 9])]

/-- Target `\x7ba: \x7bx: 1\x7d\x7d` whose object slot meets a primitive source. -/
def c10target : JSVal := JSVal.vobj [("a".toList, JSVal.vobj [("x".toList, JSVal.vnum 1)])]

/-- Source `\x7ba: 5\x7d` carrying a primitive over the object slot. -/
def c10source : JSVal := JSVal.vobj [("a".toList, JSVal.vnum 5)]

/-- The error object `\x7bdata: \x7berror: \x7bmessage: "boom"\x7d\x7d\x7d`. -/
def c3errInner : JSVal := JSVal.vobj [("message".toList, JSVal.vstr "boom".toList)]

/-- Its `data` field. -/
def c3errData : JSVal := JSVal.vobj [("error".toList, c3errInner)]

/-- The full error object fed to `getErrorMessage`. -/
def c3err : JSVal := JSVal.vobj [("data".toList, c3errData)]

/-- Parameter object `\x7bname: "Amy"\x7d` for the placeholder example. -/
def amyParams : JSVal := JSVal.vobj [("name".toList, JSVal.vstr "Amy".toList)]

/-! Theorems.  First a block of arithmetic and string helpers shared by the
claims, then one theorem per claim (with its witness or counterexample). -/

theorem digitsRevF_mem_lt :
    ∀ (fuel n : Nat), ∀ d ∈ digitsRevF fuel n, d < 10 := by
  intro fuel
  induction fuel with
  | zero => intro n d hd; simp [digitsRevF] at hd
  | succ fuel ih =>
    intro n d hd
    rw [digitsRevF] at hd
    split at hd
    · simp at hd
    · rcases List.mem_cons.mp hd with h | h
      · omega
      · exact ih (n / 10) d h

theorem digitsRev_mem_lt (n : Nat) : ∀ d ∈ digitsRev n, d < 10 :=
  digitsRevF_mem_lt n n

theorem ofDigits_digitsRevF :
    ∀ (fuel n : Nat), n ≤ fuel → Nat.ofDigits 10 (digitsRevF fuel n) = n := by
  intro fuel
  induction fuel with
  | zero => intro n hn; interval_cases n; simp [digitsRevF, Nat.ofDigits]
  | succ fuel ih =>
    intro n hn
    rw [digitsRevF]
    split
    · rename_i hz; simp [hz, Nat.ofDigits]
    · rename_i hz
      rw [Nat.ofDigits_cons, ih (n / 10) (by omega)]
      omega

theorem ofDigits_digitsRev (n : Nat) : Nat.ofDigits 10 (digitsRev n) = n :=
  ofDigits_digitsRevF n n (Nat.le_refl n)

theorem foldl_digits_horner (l : List Nat) (a : Nat) (hl : ∀ d ∈ l, d < 10) :
    ((l.reverse.map Nat.digitChar).foldl (fun x c => 10 * x + (c.toNat - 48)) a)
      = a * 10 ^ l.length + Nat.ofDigits 10 l := by
  induction l generalizing a with
  | nil => simp
  | cons d rest ih =>
    have hd : d < 10 := hl d (by simp)
    have hrest : ∀ e ∈ rest, e < 10 := fun e he => hl e (by simp [he])
    have hchar : (Nat.digitChar d).toNat - 48 = d := by interval_cases d <;> decide
    simp only [List.reverse_cons, List.map_append, List.foldl_append, List.map_cons,
      List.map_nil, List.foldl_cons, List.foldl_nil]
    rw [ih a hrest, hchar, Nat.ofDigits_cons, List.length_cons]
    ring

theorem digitsVal_natToStr (n : Nat) : digitsVal (natToStr n) = n := by
  by_cases h : n = 0
  · subst h; decide
  · rw [natToStr, if_neg h]
    have := foldl_digits_horner (digitsRev n) 0 (digitsRev_mem_lt n)
    simpa [digitsVal, ofDigits_digitsRev n] using this

theorem natToStr_all_digits (n : Nat) : ∀ c ∈ natToStr n, c.isDigit = true := by
  intro c hc
  rw [natToStr] at hc
  split at hc
  · simp only [List.mem_singleton] at hc; subst hc; decide
  · simp only [List.mem_map, List.mem_reverse] at hc
    obtain ⟨d, hd, rfl⟩ := hc
    have : d < 10 := digitsRev_mem_lt n d hd
    interval_cases d <;> decide

theorem natToStr_ne_nil (n : Nat) : natToStr n ≠ [] := by
  rw [natToStr]
  split
  · simp
  · rename_i h
    have hne : digitsRev n ≠ [] := by
      obtain ⟨m, rfl⟩ := Nat.exists_eq_succ_of_ne_zero h
      rw [digitsRev, digitsRevF]
      simp
    simp [hne]

theorem isDigit_not_ws (c : Char) (h : c.isDigit = true) : c.isWhitespace = false := by
  by_contra hw
  simp only [Bool.not_eq_false] at hw
  simp only [Char.isWhitespace] at hw
  rcases Bool.or_eq_true_iff.mp hw with h1 | h1
  · rcases Bool.or_eq_true_iff.mp h1 with h2 | h2
    · rcases Bool.or_eq_true_iff.mp h2 with h3 | h3 <;>
        (first
          | (have : c = ' ' := by simpa using h3
             subst this; simp at h)
          | (have : c = '\t' := by simpa using h3
             subst this; simp at h))
    · have : c = '\r' := by simpa using h2
      subst this; simp at h
  · have : c = '\n' := by simpa using h1
    subst this; simp at h

theorem isDigit_ne_signs (c : Char) (h : c.isDigit = true) :
    (c == '-') = false ∧ (c == '+') = false ∧ c ≠ ':' := by
  refine ⟨?_, ?_, ?_⟩
  · by_contra hm
    simp only [Bool.not_eq_false, beq_iff_eq] at hm
    subst hm; simp at h
  · by_contra hm
    simp only [Bool.not_eq_false, beq_iff_eq] at hm
    subst hm; simp at h
  · intro hm
    subst hm; simp at h

theorem takeWhile_all {α : Type} (p : α → Bool) :
    ∀ (l : List α), (∀ x ∈ l, p x = true) → l.takeWhile p = l := by
  intro l
  induction l with
  | nil => intro _; rfl
  | cons c rest ih =>
    intro h
    rw [List.takeWhile_cons, h c (by simp)]
    simp [ih (fun x hx => h x (by simp [hx]))]

theorem parseIntOr0_digits (cs : Str) (hne : cs ≠ []) (hd : ∀ c ∈ cs, c.isDigit = true) :
    parseIntOr0 cs = (digitsVal cs : Int) := by
  obtain ⟨c, rest, rfl⟩ := List.exists_cons_of_ne_nil hne
  have hc := hd c (by simp)
  have hw := isDigit_not_ws c hc
  obtain ⟨hm, hp, _⟩ := isDigit_ne_signs c hc
  have hdw : (c :: rest).dropWhile Char.isWhitespace = c :: rest := by
    rw [List.dropWhile_cons]
    simp [hw]
  have htw : (c :: rest).takeWhile Char.isDigit = c :: rest := takeWhile_all _ _ hd
  rw [parseIntOr0]
  simp only [hdw, List.head?_cons, Option.some.injEq, htw]
  simp [hm, hp, hc, htw]

theorem pad2_all_digits (n : Nat) : ∀ c ∈ pad2 n, c.isDigit = true := by
  intro c hc
  rw [pad2] at hc
  split at hc
  · rcases List.mem_cons.mp hc with h | h
    · subst h; decide
    · exact natToStr_all_digits n c h
  · exact natToStr_all_digits n c hc

theorem pad2_ne_nil (n : Nat) : pad2 n ≠ [] := by
  rw [pad2]; split
  · simp
  · exact natToStr_ne_nil n

theorem parseIntOr0_pad2 (n : Nat) : parseIntOr0 (pad2 n) = (n : Int) := by
  rw [parseIntOr0_digits (pad2 n) (pad2_ne_nil n) (pad2_all_digits n)]
  congr 1
  rw [pad2]
  split
  · have : digitsVal ('0' :: natToStr n) = digitsVal (natToStr n) := by
      simp [digitsVal]
    rw [this, digitsVal_natToStr]
  · rw [digitsVal_natToStr]

theorem pad2_no_colon (n : Nat) : ':' ∉ pad2 n := by
  intro hmem
  have := pad2_all_digits n ':' hmem
  simp at this

theorem splitCh_ne_nil (sep : Char) (l : Str) : splitCh sep l ≠ [] := by
  cases l with
  | nil => simp [splitCh]
  | cons c rest =>
    rw [splitCh]
    split
    · simp
    · split <;> simp

theorem splitCh_no_sep (sep : Char) :
    ∀ (l : Str), sep ∉ l → splitCh sep l = [l] := by
  intro l
  induction l with
  | nil => intro _; rfl
  | cons c rest ih =>
    intro h
    have hc : ¬ c = sep := fun he => h (he ▸ List.mem_cons_self c rest)
    have hrest : sep ∉ rest := fun hm => h (List.mem_cons_of_mem c hm)
    rw [splitCh, ih hrest]
    simp [hc]

theorem splitCh_append (sep : Char) :
    ∀ (A rest : Str), sep ∉ A → splitCh sep (A ++ sep :: rest) = A :: splitCh sep rest := by
  intro A
  induction A with
  | nil =>
    intro rest _
    rw [List.nil_append, splitCh]
    obtain ⟨g, gs, hg⟩ := List.exists_cons_of_ne_nil (splitCh_ne_nil sep rest)
    rw [hg]
    simp [← hg]
  | cons c A' ih =>
    intro rest h
    have hc : ¬ c = sep := fun he => h (he ▸ List.mem_cons_self c A')
    have hA' : sep ∉ A' := fun hm => h (List.mem_cons_of_mem c hm)
    rw [List.cons_append, splitCh, ih rest hA']
    simp [hc]

/-- C7: formatting `b` seconds as zero-padded `HH:MM:SS` with `secToStr` and
parsing the result back with `strToSec` recovers `b` exactly, for every
non-negative integer `b`. -/
theorem strToSec_secToStr_roundtrip (b : Nat) : strToSec (secToStr b) = (b : Int) := by
  have hsplit : splitCh ':' (secToStr b) =
      [pad2 (b / 3600), pad2 ((b - b / 3600 * 3600) / 60),
       pad2 (b - b / 3600 * 3600 - (b - b / 3600 * 3600) / 60 * 60)] := by
    rw [secToStr]
    simp only [List.cons_append, List.append_assoc]
    rw [splitCh_append ':' _ _ (pad2_no_colon _), splitCh_append ':' _ _ (pad2_no_colon _),
      splitCh_no_sep ':' _ (pad2_no_colon _)]
  rw [strToSec, hsplit]
  simp only [List.getD, List.get?_eq_getElem?, List.getElem?_cons_zero,
    List.getElem?_cons_succ, Option.getD_some]
  rw [parseIntOr0_pad2, parseIntOr0_pad2, parseIntOr0_pad2]
  omega

/-- C8: `ensureStartsWith` is idempotent once satisfied — re-ensuring the
prefix `"x"` on an already-ensured string changes nothing. -/
theorem ensureStartsWith_idempotent (s : Str) :
    ensureStartsWith (ensureStartsWith s "x".toList 0) "x".toList 0
      = ensureStartsWith s "x".toList 0 := by
  have key : ∀ (t u : Str), startsWith (ensureStartsWith u t 0) t 0 = true := by
    intro t u
    rw [ensureStartsWith]
    split
    · rename_i h; exact h
    · rw [startsWith, insertStr]
      simp [List.isPrefixOf_iff_prefix]
  rw [ensureStartsWith, if_pos (key _ _)]

/-- C1: what `toByteUnits` actually returns below 1024 — the loop's `i = 1`
iteration catches every `b < 1024` and formats it with two decimals and the
singular unit (`"512.00 byte"`), so the claimed integer-count pluralized form
(`"512 bytes"`) is not produced; the KB example behaves as claimed. -/
theorem toByteUnits_below_kib_two_decimals :
    toByteUnits 512 = "512.00 byte".toList ∧ toByteUnits 1536 = "1.50 KB".toList := by
  constructor <;> decide

theorem safe_chars_closed :
    ∀ c ∈ safeChars, Char.toLower c ∈ safeChars ∧ Char.toLower c ≠ '.' := by
  decide

theorem matchesAt_literal (pat : Str) (hp : ∀ p ∈ pat, p ≠ '.') :
    ∀ s, matchesAt pat s = pat.isPrefixOf s := by
  induction pat with
  | nil => intro s; cases s <;> rfl
  | cons p ps ih =>
    intro s
    have hh : p ≠ '.' := hp p (by simp)
    have ht : ∀ q ∈ ps, q ≠ '.' := fun q hq => hp q (by simp [hq])
    cases s with
    | nil => rfl
    | cons c cs =>
      have hpd : (p == '.') = false := beq_eq_false_iff_ne.mpr hh
      rw [matchesAt, patCharMatches, hpd, Bool.false_or, ih ht]
      rfl

theorem jsSearchAux_ne_neg1 (pat : Str) :
    ∀ (s : Str) (i : Nat),
      jsSearchAux pat s i ≠ -1 ↔ ∃ t, t <:+ s ∧ matchesAt pat t = true := by
  intro s
  induction s with
  | nil =>
    intro i
    rw [jsSearchAux]
    cases hm : matchesAt pat [] with
    | false =>
      simp only [hm, Bool.false_eq_true, if_false, ne_eq, not_true_eq_false, false_iff,
        not_exists]
      rintro t ⟨hts, hmt⟩
      rw [List.suffix_nil.mp hts, hm] at hmt
      cases hmt
    | true =>
      simp only [hm, if_true, ne_eq]
      constructor
      · intro _; exact ⟨[], List.suffix_rfl, hm⟩
      · intro _; omega
  | cons c cs ih =>
    intro i
    rw [jsSearchAux]
    cases hm : matchesAt pat (c :: cs) with
    | false =>
      simp only [hm, Bool.false_eq_true, if_false]
      rw [ih (i + 1)]
      constructor
      · rintro ⟨t, hts, hmt⟩; exact ⟨t, List.suffix_cons_iff.mpr (Or.inr hts), hmt⟩
      · rintro ⟨t, hts, hmt⟩
        rcases List.suffix_cons_iff.mp hts with h | h
        · subst h; rw [hm] at hmt; cases hmt
        · exact ⟨t, h, hmt⟩
    | true =>
      simp only [hm, if_true, ne_eq]
      constructor
      · intro _; exact ⟨c :: cs, List.suffix_rfl, hm⟩
      · intro _; omega

/-- C2 counterexample: `checkSubject("Hello", ".")` returns `true` although
`"."` is not a literal (case-insensitive) substring of `"Hello"` and the
strings differ — `String.prototype.search` compiles the input as a regex, and
`'.'` matches any character. -/
theorem checkSubject_dot_counterexample :
    checkSubject "Hello".toList ".".toList = true
      ∧ ¬ ((toLowerStr ".".toList) <:+: (toLowerStr "Hello".toList))
      ∧ "Hello".toList ≠ ".".toList :=
  ⟨by decide, by decide, by decide⟩

/-- C2 (amended): for an `input` consisting of ASCII letters and digits —
characters the regex engine treats as literals — `checkSubject` returns true
iff the strings are exactly equal, or `input` is non-empty and occurs
case-insensitively as a literal substring of `subject`.  (For inputs with
regex metacharacters such as `'.'` the search is a regex match instead.) -/
theorem checkSubject_literal_substring (subject input : Str)
    (h : ∀ c ∈ input, c ∈ safeChars) :
    (checkSubject subject input = true)
      ↔ (subject = input ∨ (input ≠ [] ∧ (toLowerStr input) <:+: (toLowerStr subject))) := by
  rw [checkSubject]
  by_cases he : subject = input
  · simp [he]
  · rw [if_neg he]
    have hlit : ∀ p ∈ toLowerStr input, p ≠ '.' := by
      intro p hp
      rw [toLowerStr] at hp
      simp only [List.mem_map] at hp
      obtain ⟨c, hc, rfl⟩ := hp
      exact (safe_chars_closed c (h c hc)).2
    have hsearch : jsSearch (toLowerStr subject) (toLowerStr input) ≠ -1
        ↔ (toLowerStr input) <:+: (toLowerStr subject) := by
      rw [jsSearch, jsSearchAux_ne_neg1]
      constructor
      · rintro ⟨t, hts, hmt⟩
        rw [matchesAt_literal _ hlit t, List.isPrefixOf_iff_prefix] at hmt
        exact List.infix_iff_prefix_suffix.mpr ⟨t, hmt, hts⟩
      · intro hinf
        obtain ⟨t, hpre, hsuf⟩ := List.infix_iff_prefix_suffix.mp hinf
        refine ⟨t, hsuf, ?_⟩
        rw [matchesAt_literal _ hlit t, List.isPrefixOf_iff_prefix]
        exact hpre
    simp only [he, false_or, Bool.and_eq_true, Bool.not_eq_eq_eq_not, Bool.not_true,
      bne_iff_ne, ne_eq]
    constructor
    · rintro ⟨h1, h2⟩
      refine ⟨?_, hsearch.mp h2⟩
      intro hnil
      rw [hnil] at h1
      simp at h1
    · rintro ⟨h1, h2⟩
      refine ⟨?_, hsearch.mpr h2⟩
      simp [List.isEmpty_iff, h1]

/-- C2 witness: the amended theorem at `subject = "Hello"`, `input = "ell"`. -/
theorem checkSubject_literal_substring_witness :
    checkSubject "Hello".toList "ell".toList = true :=
  (checkSubject_literal_substring "Hello".toList "ell".toList (by decide)).mpr
    (Or.inr ⟨by decide, by decide⟩)

theorem arrIndex?_nodigit (len : Nat) (k : Str) (c : Char) (hc : c ∈ k)
    (hnd : c.isDigit = false) : arrIndex? len k = none := by
  rw [arrIndex?]
  apply List.find?_eq_none.mpr
  intro i _
  intro heq
  have hik : natToStr i = k := by simpa using heq
  have := natToStr_all_digits i c (hik ▸ hc)
  rw [this] at hnd
  cases hnd

theorem getSlot_varr_nodigit (es : List JSVal) (k : Str) (c : Char) (hc : c ∈ k)
    (hnd : c.isDigit = false) : getSlot (.varr es) k = .vundef := by
  simp [getSlot, arrIndex?_nodigit es.length k c hc hnd]

theorem getSlot_vstr_nodigit (s : Str) (k : Str) (c : Char) (hc : c ∈ k)
    (hnd : c.isDigit = false) : getSlot (.vstr s) k = .vundef := by
  simp [getSlot, arrIndex?_nodigit s.length k c hc hnd]

theorem dataBlock_spec (d : JSVal)
    (hd : ∀ gs, d = JSVal.vobj gs →
      isNullV ((gs.lookup "error".toList).getD .vundef) = false) :
    dataBlock d = .ok (specDataResult d) := by
  cases d with
  | vnull => rfl
  | vundef => rfl
  | vbool b => cases b <;> rfl
  | vnum n =>
    by_cases hn : n = 0
    · subst hn; rfl
    · simp [dataBlock, specDataResult, truthy, getProp, getSlot, specProp, typeof, hn]
  | vstr s =>
    cases s with
    | nil => rfl
    | cons c cs =>
      have h1 : getSlot (JSVal.vstr (c :: cs)) ['m', 'e', 's', 's', 'a', 'g', 'e']
          = JSVal.vundef :=
        getSlot_vstr_nodigit (c :: cs) "message".toList 'm' (by decide) (by decide)
      have h2 : getSlot (JSVal.vstr (c :: cs)) ['e', 'r', 'r', 'o', 'r'] = JSVal.vundef :=
        getSlot_vstr_nodigit (c :: cs) "error".toList 'e' (by decide) (by decide)
      have hgp : ∀ k, getProp (JSVal.vstr (c :: cs)) k
          = .ok (getSlot (JSVal.vstr (c :: cs)) k) := fun _ => rfl
      simp [dataBlock, specDataResult, truthy, hgp, specProp, typeof, h1, h2]
  | varr es =>
    have h1 : getSlot (JSVal.varr es) ['m', 'e', 's', 's', 'a', 'g', 'e'] = JSVal.vundef :=
      getSlot_varr_nodigit es "message".toList 'm' (by decide) (by decide)
    have h2 : getSlot (JSVal.varr es) ['e', 'r', 'r', 'o', 'r'] = JSVal.vundef :=
      getSlot_varr_nodigit es "error".toList 'e' (by decide) (by decide)
    have hgp : ∀ k, getProp (JSVal.varr es) k
        = .ok (getSlot (JSVal.varr es) k) := fun _ => rfl
    simp [dataBlock, specDataResult, truthy, hgp, specProp, typeof, h1, h2]
  | vobj gs =>
    have hde : isNullV ((gs.lookup "error".toList).getD JSVal.vundef) = false := hd gs rfl
    have hgp : ∀ k, getProp (JSVal.vobj gs) k = .ok (getSlot (JSVal.vobj gs) k) :=
      fun _ => rfl
    have hgs : ∀ k, getSlot (JSVal.vobj gs) k = (gs.lookup k).getD .vundef := fun _ => rfl
    have hsp : ∀ k, specProp (JSVal.vobj gs) k = (gs.lookup k).getD .vundef := fun _ => rfl
    have htr : truthy (JSVal.vobj gs) = true := rfl
    simp only [dataBlock, hgp, hgs, hsp, specDataResult, htr, if_true]
    generalize (List.lookup "message".toList gs).getD JSVal.vundef = dm
    generalize hE : (List.lookup "error".toList gs).getD JSVal.vundef = de
    rw [hE] at hde
    cases hdm : truthy dm with
    | true => simp [hdm]
    | false =>
      simp only [hdm, Bool.false_eq_true, if_false]
      cases de with
      | vnull => simp [isNullV] at hde
      | vundef => simp [typeof]
      | vbool b => simp [typeof]
      | vnum n => simp [typeof]
      | vstr s => simp [typeof]
      | varr es =>
        have hPR : getProp (JSVal.varr es) ['m', 'e', 's', 's', 'a', 'g', 'e']
            = Except.ok JSVal.vundef := by
          show Except.ok (getSlot (JSVal.varr es) ['m', 'e', 's', 's', 'a', 'g', 'e']) = _
          rw [getSlot_varr_nodigit es ['m', 'e', 's', 's', 'a', 'g', 'e'] 'm' (by decide)
            (by decide)]
        simp [typeof, hPR, specProp, truthy]
      | vobj hs =>
        have hgp2 : getProp (JSVal.vobj hs) "message".toList
            = .ok ((hs.lookup "message".toList).getD .vundef) := rfl
        have hsp2 : specProp (JSVal.vobj hs) "message".toList
            = (hs.lookup "message".toList).getD .vundef := rfl
        simp only [typeof, hgp2, hsp2]
        generalize (List.lookup "message".toList hs).getD JSVal.vundef = dem
        cases hdem : truthy dem with
        | true => simp [hdem]
        | false => simp [hdem]

/-- C3 counterexample: `getErrorMessage(null)` throws — `typeof null` is
`"object"`, so the object branch is entered and the `null.message` access
faults — refuting the claim that the function never throws for every input. -/
theorem getErrorMessage_null_throws : getErrorMessage JSVal.vnull = Except.error () := rfl

/-- C3 (amended): for every input that is not `null` and whose `data.error`
field (when `data` is an object) is not `null`, `getErrorMessage` does not
throw and returns exactly the specification's priority chain — a non-object
unchanged, an object's first resolving entry of `message → data.message →
data.error (string) → data.error.message → statusText → status`, else the
object itself. -/
theorem getErrorMessage_refines_spec (err : JSVal) (h1 : isNullV err = false)
    (h2 : noNullDataError err = true) :
    getErrorMessage err = Except.ok (getErrorMessageSpec err) := by
  cases err with
  | vnull => simp [isNullV] at h1
  | vundef => rfl
  | vbool b => rfl
  | vnum n => rfl
  | vstr s => rfl
  | varr es =>
    have hm : getSlot (JSVal.varr es) ['m', 'e', 's', 's', 'a', 'g', 'e'] = JSVal.vundef :=
      getSlot_varr_nodigit es "message".toList 'm' (by decide) (by decide)
    have hdta : getSlot (JSVal.varr es) ['d', 'a', 't', 'a'] = JSVal.vundef :=
      getSlot_varr_nodigit es "data".toList 'd' (by decide) (by decide)
    have hst : getSlot (JSVal.varr es) ['s', 't', 'a', 't', 'u', 's', 'T', 'e', 'x', 't']
        = JSVal.vundef :=
      getSlot_varr_nodigit es "statusText".toList 's' (by decide) (by decide)
    have hs : getSlot (JSVal.varr es) ['s', 't', 'a', 't', 'u', 's'] = JSVal.vundef :=
      getSlot_varr_nodigit es "status".toList 's' (by decide) (by decide)
    have hgp : ∀ k, getProp (JSVal.varr es) k
        = .ok (getSlot (JSVal.varr es) k) := fun _ => rfl
    simp [getErrorMessage, getErrorMessageSpec, hgp, typeof, truthy, hm, hdta, hst, hs,
      dataBlock]
  | vobj fs =>
    have h2x : (match (List.lookup "data".toList fs).getD JSVal.vundef with
        | JSVal.vobj gs =>
          !isNullV ((List.lookup "error".toList gs).getD JSVal.vundef)
        | _ => true) = true := h2
    have hdata : ∀ gs,
        ((List.lookup "data".toList fs).getD JSVal.vundef) = JSVal.vobj gs →
        isNullV ((List.lookup "error".toList gs).getD JSVal.vundef) = false := by
      intro gs hgs
      rw [hgs] at h2x
      simpa using h2x
    have hDB : dataBlock ((List.lookup "data".toList fs).getD JSVal.vundef)
        = .ok (specDataResult ((List.lookup "data".toList fs).getD JSVal.vundef)) :=
      dataBlock_spec _ hdata
    have hgp : ∀ k, getProp (JSVal.vobj fs) k
        = .ok (getSlot (JSVal.vobj fs) k) := fun _ => rfl
    have hgs : ∀ k, getSlot (JSVal.vobj fs) k = (List.lookup k fs).getD .vundef :=
      fun _ => rfl
    have hsp : ∀ k, specProp (JSVal.vobj fs) k = (List.lookup k fs).getD .vundef :=
      fun _ => rfl
    have hto : typeof (JSVal.vobj fs) = "object" := rfl
    simp only [getErrorMessage, getErrorMessageSpec, hgp, hgs, hsp, hto, beq_self_eq_true,
      if_true]
    rw [hDB]
    generalize (List.lookup "message".toList fs).getD JSVal.vundef = m
    generalize (List.lookup "statusText".toList fs).getD JSVal.vundef = st
    generalize (List.lookup "status".toList fs).getD JSVal.vundef = sv
    generalize specDataResult ((List.lookup "data".toList fs).getD JSVal.vundef) = res
    cases htm : truthy m with
    | true => simp [htm]
    | false =>
      simp only [htm, Bool.false_eq_true, if_false]
      cases res with
      | some v => rfl
      | none =>
        cases hts : truthy st with
        | true => simp [hts]
        | false =>
          simp only [hts, Bool.false_eq_true, if_false]
          cases htv : truthy sv with
          | true => simp [htv]
          | false => simp [htv]

/-- C3 witness: the amended theorem at the concrete object
`\x7bdata: \x7berror: \x7bmessage: "boom"\x7d\x7d\x7d`, whose chain resolves to `"boom"`. -/
theorem getErrorMessage_refines_spec_witness :
    getErrorMessage c3err = Except.ok (JSVal.vstr "boom".toList) :=
  (getErrorMessage_refines_spec c3err rfl rfl).trans (by rfl)

theorem beqStr_comm_false (k k₀ : Str) (h : (k₀ == k) = false) : (k == k₀) = false := by
  apply beq_eq_false_iff_ne.mpr
  intro he
  subst he
  rw [beq_self_eq_true] at h
  cases h

theorem lookup_no_key (k : Str) :
    ∀ (fs : List (Str × JSVal)), fs.any (fun p => p.1 == k) = false →
      fs.lookup k = none := by
  intro fs
  induction fs with
  | nil => intro _; rfl
  | cons p rest ih =>
    intro h
    obtain ⟨k₀, v₀⟩ := p
    simp only [List.any_cons, Bool.or_eq_false_iff] at h
    simp only [List.lookup, beqStr_comm_false k k₀ h.1]
    exact ih h.2

theorem lookup_append_right (k : Str) :
    ∀ (fs rest : List (Str × JSVal)), fs.any (fun p => p.1 == k) = false →
      (fs ++ rest).lookup k = rest.lookup k := by
  intro fs
  induction fs with
  | nil => intro rest _; rfl
  | cons p fs' ih =>
    intro rest h
    obtain ⟨k₀, v₀⟩ := p
    simp only [List.any_cons, Bool.or_eq_false_iff] at h
    simp only [List.cons_append, List.lookup, beqStr_comm_false k k₀ h.1]
    exact ih rest h.2

theorem lookup_cons_self (k : Str) (v : JSVal) (rest : List (Str × JSVal)) :
    ((k, v) :: rest).lookup k = some v := by
  simp [List.lookup_cons]

theorem lookup_cons_ne (k k₀ : Str) (v₀ : JSVal) (rest : List (Str × JSVal))
    (hk : (k == k₀) = false) : ((k₀, v₀) :: rest).lookup k = rest.lookup k := by
  simp [List.lookup_cons, hk]

theorem lookup_map_replace_same (k : Str) (v : JSVal) :
    ∀ (fs : List (Str × JSVal)), fs.any (fun p => p.1 == k) = true →
      (fs.map (fun p => if p.1 == k then (k, v) else p)).lookup k = some v := by
  intro fs
  induction fs with
  | nil => intro h; simp at h
  | cons p rest ih =>
    intro h
    obtain ⟨k₀, v₀⟩ := p
    by_cases hk : k₀ = k
    · subst hk
      simp only [List.map_cons]
      rw [if_pos (beq_self_eq_true k₀), lookup_cons_self]
    · have hk1 : (k₀ == k) = false := beq_eq_false_iff_ne.mpr hk
      have hk2 : (k == k₀) = false := beqStr_comm_false k k₀ hk1
      simp only [List.any_cons, hk1, Bool.false_or] at h
      simp only [List.map_cons]
      rw [if_neg (by simp [hk1]), lookup_cons_ne k k₀ v₀ _ hk2]
      exact ih h

theorem lookup_setField_same (fs : List (Str × JSVal)) (k : Str) (v : JSVal) :
    (setField fs k v).lookup k = some v := by
  rw [setField]
  cases hany : fs.any (fun p => p.1 == k) with
  | false =>
    simp only [Bool.false_eq_true, if_false]
    rw [lookup_append_right k fs [(k, v)] hany, lookup_cons_self]
  | true =>
    simp only [if_true]
    exact lookup_map_replace_same k v fs hany

theorem lookup_map_replace_ne (k k' : Str) (v : JSVal) (h : k ≠ k') :
    ∀ (fs : List (Str × JSVal)),
      (fs.map (fun p => if p.1 == k' then (k', v) else p)).lookup k = fs.lookup k := by
  have hkk : (k == k') = false := beq_eq_false_iff_ne.mpr h
  intro fs
  induction fs with
  | nil => rfl
  | cons p rest ih =>
    obtain ⟨k₀, v₀⟩ := p
    by_cases hk : k₀ = k'
    · subst hk
      simp only [List.map_cons]
      rw [if_pos (beq_self_eq_true k₀), lookup_cons_ne k k₀ v _ hkk,
        lookup_cons_ne k k₀ v₀ _ hkk]
      exact ih
    · have hk1 : (k₀ == k') = false := beq_eq_false_iff_ne.mpr hk
      simp only [List.map_cons]
      rw [if_neg (by simp [hk1])]
      cases hk2 : k == k₀ with
      | true =>
        have hek : k = k₀ := by simpa using hk2
        subst hek
        rw [lookup_cons_self, lookup_cons_self]
      | false =>
        rw [lookup_cons_ne _ _ _ _ hk2, lookup_cons_ne _ _ _ _ hk2]
        exact ih

theorem lookup_append_single_ne (k k' : Str) (v : JSVal) (h : (k == k') = false) :
    ∀ fs : List (Str × JSVal), (fs ++ [(k', v)]).lookup k = fs.lookup k := by
  intro fs
  induction fs with
  | nil => simp [List.lookup_cons, h]
  | cons p rest ih =>
    obtain ⟨k₀, v₀⟩ := p
    rw [List.cons_append]
    cases hk2 : k == k₀ with
    | true =>
      have hek : k = k₀ := by simpa using hk2
      subst hek
      rw [lookup_cons_self, lookup_cons_self]
    | false =>
      rw [lookup_cons_ne _ _ _ _ hk2, lookup_cons_ne _ _ _ _ hk2]
      exact ih

theorem lookup_setField_ne (fs : List (Str × JSVal)) (k k' : Str) (v : JSVal)
    (h : k ≠ k') : (setField fs k' v).lookup k = fs.lookup k := by
  have hkk : (k == k') = false := beq_eq_false_iff_ne.mpr h
  rw [setField]
  cases hany : fs.any (fun p => p.1 == k') with
  | true =>
    simp only [if_true]
    exact lookup_map_replace_ne k k' v h fs
  | false =>
    simp only [Bool.false_eq_true, if_false]
    exact lookup_append_single_ne k k' v hkk fs

theorem getSlot_setField_same (fs : List (Str × JSVal)) (k : Str) (v : JSVal) :
    getSlot (.vobj (setField fs k v)) k = v := by
  simp only [getSlot]
  rw [lookup_setField_same]
  rfl

theorem getSlot_setField_ne (fs : List (Str × JSVal)) (k k' : Str) (v : JSVal)
    (h : k ≠ k') : getSlot (.vobj (setField fs k' v)) k = getSlot (.vobj fs) k := by
  simp only [getSlot]
  rw [lookup_setField_ne fs k k' v h]

theorem mergeRecursive_primitive (t v : JSVal) (h : isPrimNonString v = true) :
    mergeRecursive t v = t := by
  cases v with
  | vnum n => rfl
  | vbool b => rfl
  | vnull => rfl
  | vundef => rfl
  | vstr cs => simp [isPrimNonString] at h
  | varr es => simp [isPrimNonString] at h
  | vobj gs => simp [isPrimNonString] at h

theorem mergeFields_cons (t : JSVal) (k₀ : Str) (v₀ : JSVal)
    (rest : List (Str × JSVal)) :
    mergeFields t ((k₀, v₀) :: rest)
      = mergeFields
          (if truthyObj (getSlot t k₀) then
             setSlot t k₀ (mergeRecursive (getSlot t k₀) v₀)
           else setSlot t k₀ v₀) rest := rfl

theorem mergeFields_getSlot_not_mem (k : Str) :
    ∀ (rest fs : List (Str × JSVal)), (∀ p ∈ rest, p.1 ≠ k) →
      getSlot (mergeFields (.vobj fs) rest) k = getSlot (.vobj fs) k := by
  intro rest
  induction rest with
  | nil => intro fs _; rfl
  | cons p rest ih =>
    intro fs hmem
    obtain ⟨k₀, v₀⟩ := p
    have hne : k₀ ≠ k := hmem (k₀, v₀) (List.mem_cons_self _ _)
    have hkne : k ≠ k₀ := fun he => hne he.symm
    have htail : ∀ p ∈ rest, p.1 ≠ k := fun p hp => hmem p (List.mem_cons_of_mem _ hp)
    rw [mergeFields_cons]
    cases htr : truthyObj (getSlot (JSVal.vobj fs) k₀) with
    | true =>
      rw [if_pos rfl,
        show setSlot (JSVal.vobj fs) k₀ (mergeRecursive (getSlot (JSVal.vobj fs) k₀) v₀)
          = JSVal.vobj (setField fs k₀ (mergeRecursive (getSlot (JSVal.vobj fs) k₀) v₀))
          from rfl,
        ih _ htail]
      exact getSlot_setField_ne fs k k₀ _ hkne
    | false =>
      rw [if_neg (by simp [htr]),
        show setSlot (JSVal.vobj fs) k₀ v₀ = JSVal.vobj (setField fs k₀ v₀) from rfl,
        ih _ htail]
      exact getSlot_setField_ne fs k k₀ _ hkne

theorem mergeFields_lookup_array (k : Str) (es : List JSVal) :
    ∀ (gs fs : List (Str × JSVal)),
      (gs.map Prod.fst).Nodup →
      gs.lookup k = some (.varr es) →
      truthyObj (getSlot (.vobj fs) k) = false →
      getSlot (mergeFields (.vobj fs) gs) k = .varr es := by
  intro gs
  induction gs with
  | nil => intro fs _ hk _; simp at hk
  | cons p rest ih =>
    intro fs hnod hk ht
    obtain ⟨k₀, v₀⟩ := p
    rw [List.map_cons, List.nodup_cons] at hnod
    rw [mergeFields_cons]
    cases hkk : k == k₀ with
    | true =>
      have hek : k = k₀ := by simpa using hkk
      subst hek
      rw [lookup_cons_self] at hk
      have hv : v₀ = .varr es := Option.some.inj hk
      subst hv
      rw [if_neg (by simp [ht]),
        show setSlot (JSVal.vobj fs) k (JSVal.varr es)
          = JSVal.vobj (setField fs k (JSVal.varr es)) from rfl]
      have hnotmem : ∀ p ∈ rest, p.1 ≠ k := by
        intro p hp he
        have hm : p.1 ∈ rest.map Prod.fst := List.mem_map_of_mem Prod.fst hp
        exact hnod.1 (he ▸ hm)
      rw [mergeFields_getSlot_not_mem k rest _ hnotmem]
      exact getSlot_setField_same fs k (JSVal.varr es)
    | false =>
      have hkne : k ≠ k₀ := by simpa using hkk
      have hk' : rest.lookup k = some (.varr es) := by
        rw [lookup_cons_ne k k₀ v₀ rest hkk] at hk
        exact hk
      cases htr : truthyObj (getSlot (JSVal.vobj fs) k₀) with
      | true =>
        rw [if_pos rfl,
          show setSlot (JSVal.vobj fs) k₀ (mergeRecursive (getSlot (JSVal.vobj fs) k₀) v₀)
            = JSVal.vobj (setField fs k₀ (mergeRecursive (getSlot (JSVal.vobj fs) k₀) v₀))
            from rfl]
        exact ih _ hnod.2 hk' (by rw [getSlot_setField_ne fs k k₀ _ hkne]; exact ht)
      | false =>
        rw [if_neg (by simp [htr]),
          show setSlot (JSVal.vobj fs) k₀ v₀ = JSVal.vobj (setField fs k₀ v₀) from rfl]
        exact ih _ hnod.2 hk' (by rw [getSlot_setField_ne fs k k₀ _ hkne]; exact ht)

theorem mergeFields_lookup_prim (k : Str) (u v : JSVal) (hprim : isPrimNonString v = true)
    (hu : truthyObj u = true) :
    ∀ (gs fs : List (Str × JSVal)),
      (gs.map Prod.fst).Nodup →
      gs.lookup k = some v →
      getSlot (.vobj fs) k = u →
      getSlot (mergeFields (.vobj fs) gs) k = u := by
  intro gs
  induction gs with
  | nil => intro fs _ hk _; simp at hk
  | cons p rest ih =>
    intro fs hnod hk hfs
    obtain ⟨k₀, v₀⟩ := p
    rw [List.map_cons, List.nodup_cons] at hnod
    rw [mergeFields_cons]
    cases hkk : k == k₀ with
    | true =>
      have hek : k = k₀ := by simpa using hkk
      subst hek
      rw [lookup_cons_self] at hk
      have hv : v₀ = v := Option.some.inj hk
      subst hv
      rw [hfs, if_pos hu, mergeRecursive_primitive u v₀ hprim,
        show setSlot (JSVal.vobj fs) k u = JSVal.vobj (setField fs k u) from rfl]
      have hnotmem : ∀ p ∈ rest, p.1 ≠ k := by
        intro p hp he
        have hm : p.1 ∈ rest.map Prod.fst := List.mem_map_of_mem Prod.fst hp
        exact hnod.1 (he ▸ hm)
      rw [mergeFields_getSlot_not_mem k rest _ hnotmem]
      exact getSlot_setField_same fs k u
    | false =>
      have hkne : k ≠ k₀ := by simpa using hkk
      have hk' : rest.lookup k = some v := by
        rw [lookup_cons_ne k k₀ v₀ rest hkk] at hk
        exact hk
      cases htr : truthyObj (getSlot (JSVal.vobj fs) k₀) with
      | true =>
        rw [if_pos rfl,
          show setSlot (JSVal.vobj fs) k₀ (mergeRecursive (getSlot (JSVal.vobj fs) k₀) v₀)
            = JSVal.vobj (setField fs k₀ (mergeRecursive (getSlot (JSVal.vobj fs) k₀) v₀))
            from rfl]
        exact ih _ hnod.2 hk' (by rw [getSlot_setField_ne fs k k₀ _ hkne]; exact hfs)
      | false =>
        rw [if_neg (by simp [htr]),
          show setSlot (JSVal.vobj fs) k₀ v₀ = JSVal.vobj (setField fs k₀ v₀) from rfl]
        exact ih _ hnod.2 hk' (by rw [getSlot_setField_ne fs k k₀ _ hkne]; exact hfs)

/-- C4: the true half of the claim — when the target's slot at an array-valued
source key is not a truthy object, `mergeRecursive` installs the source array
wholesale at that slot.  The other half of the claim (the merge "never
combines the arrays element-wise") is refuted by the separate counterexample:
with a truthy object (in particular an array) already in the slot, the source
array is merged index by index into it. -/
theorem mergeRecursive_array_replaces (fs gs : List (Str × JSVal)) (k : Str)
    (es : List JSVal) (hnod : (gs.map Prod.fst).Nodup)
    (hk : gs.lookup k = some (.varr es))
    (ht : truthyObj (getSlot (.vobj fs) k) = false) :
    getSlot (mergeRecursive (.vobj fs) (.vobj gs)) k = .varr es :=
  mergeFields_lookup_array k es gs fs hnod hk ht

/-- Witness for the C4 theorem: merging `\x7ba: [1]\x7d` into the empty object
puts the array `[1]` at `a`. -/
theorem mergeRecursive_array_replaces_witness :
    getSlot (mergeRecursive (JSVal.vobj [])
      (JSVal.vobj [("a".toList, JSVal.varr [JSVal.vnum 1])])) "a".toList
      = JSVal.varr [JSVal.vnum 1] :=
  mergeRecursive_array_replaces [] [("a".toList, JSVal.varr [JSVal.vnum 1])]
    "a".toList [JSVal.vnum 1] (by simp) rfl rfl

/-- C4 counterexample: merging source `\x7ba: [9]\x7d` into target
`\x7ba: [1, 2]\x7d` yields `a = [9, 2]` — the arrays ARE combined element-wise
(the target array is a truthy `typeof === 'object'` value, so the code
recurses into it), contradicting the claim that the entire source array always
replaces the slot. -/
theorem mergeRecursive_array_counterexample :
    getSlot (mergeRecursive c4target c4source) "a".toList
      = JSVal.varr [JSVal.vnum 9, JSVal.vnum 2] ∧
    JSVal.varr [JSVal.vnum 9, JSVal.vnum 2] ≠ JSVal.varr [JSVal.vnum 9] :=
  ⟨rfl, by simp⟩

/-- C10: when the target's slot at `k` holds a truthy object-typed value `u`
and the source's value at `k` is a non-string primitive, `mergeRecursive`
leaves the slot equal to `u`: `for…in` over the primitive runs zero
iterations, so the recursive call returns the target slot unchanged and the
primitive is silently discarded. -/
theorem mergeRecursive_discards_primitive (fs gs : List (Str × JSVal)) (k : Str)
    (u v : JSVal) (hnod : (gs.map Prod.fst).Nodup)
    (hu : fs.lookup k = some u) (hobj : truthyObj u = true)
    (hk : gs.lookup k = some v) (hprim : isPrimNonString v = true) :
    getSlot (mergeRecursive (.vobj fs) (.vobj gs)) k = u :=
  mergeFields_lookup_prim k u v hprim hobj gs fs hnod hk
    (by simp only [getSlot]; rw [hu]; rfl)

/-- Witness for the C10 theorem: merging `\x7ba: 5\x7d` into
`\x7ba: \x7bx: 1\x7d\x7d` leaves `a = \x7bx: 1\x7d`. -/
theorem mergeRecursive_discards_primitive_witness :
    getSlot (mergeRecursive c10target c10source) "a".toList
      = JSVal.vobj [("x".toList, JSVal.vnum 1)] :=
  mergeRecursive_discards_primitive
    [("a".toList, JSVal.vobj [("x".toList, JSVal.vnum 1)])]
    [("a".toList, JSVal.vnum 5)] "a".toList
    (JSVal.vobj [("x".toList, JSVal.vnum 1)]) (JSVal.vnum 5)
    (by simp) rfl rfl rfl rfl

/-- C5: code bug.  The branch for `min === null && max` builds
`new RegExp('[a-z0-9]\x7b,' + max + '\x7d', 'g')`, but in ECMAScript `\x7b,3\x7d`
is not a quantifier (only `\x7bn\x7d`, `\x7bn,\x7d`, `\x7bn,m\x7d` are): it is
literal text.  So `slugify("ab", null, 3)` returns `""` — not the claimed runs
of length at most 3 — while an input containing a class character followed by
the literal text `\x7b,3\x7d` is matched verbatim. -/
theorem slugify_null_max_literal :
    slugify "ab".toList JSArg.jnull (JSArg.num 3) = .ok [] ∧
    slugify ('a' :: litPat 3 ++ ['b']) JSArg.jnull (JSArg.num 3)
      = .ok ('a' :: litPat 3) := by
  constructor
  · simp [slugify, truthyArg, deburr, toLowerStr, deburrChar,
      show Char.toLower 'a' = 'a' from rfl, show Char.toLower 'b' = 'b' from rfl]
    rw [slugLitMatches]
    simp [isSlugChar, litPat, argNum]
    rw [slugLitMatches]
    simp [isSlugChar, litPat, argNum, natToStr, digitsRev, digitsRevF]
    rw [slugLitMatches]
    rfl
  · simp [slugify, truthyArg, litPat, natToStr, digitsRev, digitsRevF, deburr,
      toLowerStr, deburrChar, argNum,
      show Nat.digitChar 3 = '3' from rfl,
      show Char.toLower 'a' = 'a' from rfl, show Char.toLower 'b' = 'b' from rfl,
      show Char.toLower ',' = ',' from rfl, show Char.toLower '3' = '3' from rfl,
      show Char.toLower '\x7b' = '\x7b' from rfl,
      show Char.toLower '\x7d' = '\x7d' from rfl]
    rw [slugLitMatches]
    simp [isSlugChar, List.isPrefixOf]
    rw [slugLitMatches]
    simp [isSlugChar, List.isPrefixOf]
    rw [slugLitMatches]
    rfl

/-- C6: on a non-empty string, `slugify` raises its `RangeError` exactly when
`min` is falsy but not `null` while `max` is truthy; every combination with
`max` falsy (including the claim's example `min = 0`, `max` absent) is caught
by the first branch `!min && !max` or the third `min && !max` and returns a
slug instead. -/
theorem slugify_rangeError_iff (str : Str) (mn mx : JSArg) (h : str ≠ []) :
    slugify str mn mx = .error .rangeError ↔
      truthyArg mn = false ∧ mn ≠ .jnull ∧ truthyArg mx = true := by
  have hne : str.isEmpty = false := by
    cases str with
    | nil => exact absurd rfl h
    | cons c cs => rfl
  cases hm : truthyArg mn <;> cases hx : truthyArg mx
  · simp [slugify, hne, hm, hx]
  · cases hj : mn == JSArg.jnull with
    | true =>
      have hjj : mn = .jnull := by simpa using hj
      subst hjj
      simp [slugify, hne, hm, hx]
    | false =>
      have hjj : mn ≠ .jnull := by simpa using hj
      simp [slugify, hne, hm, hx, hj, hjj]
  · simp [slugify, hne, hm, hx]
  · simp [slugify, hne, hm, hx]
    split <;> simp

/-- Witness for the C6 theorem: `slugify("ab", 0, 5)` — `min` falsy but not
null, `max` truthy — raises `RangeError`. -/
theorem slugify_rangeError_iff_witness :
    slugify "ab".toList (JSArg.num 0) (JSArg.num 5) = .error .rangeError :=
  (slugify_rangeError_iff "ab".toList (JSArg.num 0) (JSArg.num 5)
    (by decide)).mpr ⟨rfl, by simp, rfl⟩

/-- C6 counterexample: the claim's example — `min` falsy but not null (`0`)
with `max` absent — does NOT raise: `0` and `undefined` are both falsy, so the
first branch `!min && !max` applies and the call returns the slug. -/
theorem slugify_min_zero_no_error :
    slugify "ab".toList (JSArg.num 0) JSArg.undef = .ok "ab".toList := by
  simp [slugify, truthyArg, deburr, toLowerStr, deburrChar,
    show Char.toLower 'a' = 'a' from rfl, show Char.toLower 'b' = 'b' from rfl]
  rw [slugMatches]
  simp [isSlugChar]
  rw [slugMatches]
  simp [isSlugChar, joinDash]

theorem takeWhile_append_stop (p : Char → Bool) (d : Char) (post : Str)
    (hd : p d = false) :
    ∀ w : Str, (∀ c ∈ w, p c = true) → (w ++ d :: post).takeWhile p = w := by
  intro w
  induction w with
  | nil =>
    intro _
    simp [List.takeWhile_cons, hd]
  | cons c w ih =>
    intro hall
    have hc : p c = true := hall c (List.mem_cons_self c w)
    rw [List.cons_append]
    simp [List.takeWhile_cons, hc, ih (fun x hx => hall x (List.mem_cons_of_mem c hx))]

theorem placeholderScan_token (params : JSVal) (w post : Str)
    (hw : w ≠ []) (hwc : ∀ c ∈ w, isWordChar c = true) :
    ∀ pre : Str, '\x7b' ∉ pre →
      placeholderScan params (pre ++ '\x7b' :: (w ++ '\x7d' :: post))
        = pre ++ (replVal params w ++ placeholderScan params post) := by
  intro pre
  induction pre with
  | nil =>
    intro _
    rw [List.nil_append, placeholderScan]
    have htw : (w ++ '\x7d' :: post).takeWhile isWordChar = w :=
      takeWhile_append_stop isWordChar '\x7d' post rfl w hwc
    have hdrop : (w ++ '\x7d' :: post).drop w.length = '\x7d' :: post :=
      List.drop_left w ('\x7d' :: post)
    have hdrop1 : (w ++ '\x7d' :: post).drop (w.length + 1) = post := by
      rw [← List.drop_drop, hdrop]
      rfl
    rw [if_pos rfl]
    simp only [htw, hdrop, hdrop1, List.head?_cons]
    have hne : w.isEmpty = false := by
      cases w with
      | nil => exact absurd rfl hw
      | cons c cs => rfl
    simp [hne]
  | cons c pre ih =>
    intro hnb
    have hc : c ≠ '\x7b' := fun he => hnb (he ▸ List.mem_cons_self c pre)
    rw [List.cons_append, placeholderScan, if_neg hc,
      ih (fun hm => hnb (List.mem_cons_of_mem c hm))]
    rfl

/-- C9: `placeholder` with a falsy `params` returns the string unchanged, and
with a truthy `params` a token — an opening brace, a non-empty run of word
characters, a closing brace, with no opening brace earlier in the string — is
replaced by `replVal params w`: the looked-up value coerced to string when the
lookup is found and truthy, else the bare identifier; scanning continues after
the token. -/
theorem placeholder_substitution (params : JSVal) (str pre w post : Str)
    (hw : w ≠ []) (hwc : ∀ c ∈ w, isWordChar c = true) (hpre : '\x7b' ∉ pre) :
    (truthy params = false → placeholder str params = str) ∧
    (truthy params = true →
      placeholder (pre ++ '\x7b' :: (w ++ '\x7d' :: post)) params
        = pre ++ (replVal params w ++ placeholderScan params post)) := by
  constructor
  · intro hf
    rw [placeholder, hf]
    rfl
  · intro ht
    rw [placeholder, ht, if_pos rfl]
    exact placeholderScan_token params w post hw hwc pre hpre

/-- Witness for the C9 theorem at the spec's examples:
`placeholder("Hi \x7bname\x7d", \x7bname: "Amy"\x7d)` yields `"Hi Amy"` and
`placeholder("Hi \x7bname\x7d", \x7b\x7d)` yields `"Hi name"`. -/
theorem placeholder_substitution_witness :
    placeholder ("Hi ".toList ++ '\x7b' :: ("name".toList ++ '\x7d' :: []))
      amyParams = "Hi Amy".toList ∧
    placeholder ("Hi ".toList ++ '\x7b' :: ("name".toList ++ '\x7d' :: []))
      (JSVal.vobj []) = "Hi name".toList := by
  constructor
  · have h := (placeholder_substitution amyParams [] "Hi ".toList "name".toList []
      (by decide) (by decide) (by decide)).2 rfl
    rw [h, placeholderScan]
    rfl
  · have h := (placeholder_substitution (JSVal.vobj []) [] "Hi ".toList
      "name".toList [] (by decide) (by decide) (by decide)).2 rfl
    rw [h, placeholderScan]
    rfl
